import Mathlib

/-!
Verification of the `HyperEvolve` hyperparameter-evolution engine
(`src/engine/evolve.py`).

The engine is embedded shallowly:
* Python `dict`s (insertion-ordered) become association lists
  `List (String × α)` with replace-in-place update and first-occurrence
  erase, mirroring `dict` assignment and `dict.pop`.
* Python floats become exact rationals `ℚ`; Python `round` (banker's
  rounding, round-half-to-even) becomes `pyRound`; `np.clip` becomes
  `npClip` / `qclip`; `np.sign` becomes `Int.sign` / `qsign`.
* The NumPy pseudorandom generator becomes an oracle `Rng`: after
  `np.random.seed(seed)` every draw of an epoch is a deterministic
  function of that epoch's seed, so each draw is modelled as a function
  of the seed.  `np.random.choice` over the metadata keys is modelled as
  an index choice into the weighted key list; `np.random.randint(lo, hi)`
  is half-open as in NumPy.
* The evaluation log (`Result`, a class outside `src/`) is modelled from
  the spec as an append-only list of trial records with length and
  maximum-fitness queries.
-/

attribute [local semireducible] Rat.add Rat.mul Rat.sub Rat.inv

/-- Python `round` on a rational: round half to even (banker's rounding).
`Rat.floor` is definitionally the floor of Mathlib's `FloorRing ℚ` instance. -/
def pyRound (q : ℚ) : ℤ :=
  let f := q.floor
  let r := q - (f : ℚ)
  if r < 1 / 2 then f
  else if 1 / 2 < r then f + 1
  else if f % 2 = 0 then f else f + 1

/-- Python `round(x, 3)`: round to three decimal places, half to even. -/
def pyRound3 (q : ℚ) : ℚ :=
  (pyRound (q * 1000) : ℚ) / 1000

/-- `np.clip(x, a_min, a_max)` on integers: `min(max(x, lo), hi)`. -/
def npClip (x lo hi : ℤ) : ℤ :=
  min hi (max lo x)

/-- `np.clip(x, a_min, a_max)` on rationals. -/
def qclip (x lo hi : ℚ) : ℚ :=
  min hi (max lo x)

/-- `int(np.sign(q))` on a rational. -/
def qsign (q : ℚ) : ℤ :=
  if 0 < q then 1 else if q < 0 then -1 else 0

/-- Lookup in an insertion-ordered association list (Python `d[k]` / `k in d`). -/
def alLookup {α : Type} : List (String × α) → String → Option α
  | [], _ => none
  | e :: t, k => if e.1 = k then some e.2 else alLookup t k

/-- Python `d[k] = v`: replace the value in place if the key is present,
otherwise append the binding at the end (insertion order). -/
def alUpdate {α : Type} : List (String × α) → String → α → List (String × α)
  | [], k, v => [(k, v)]
  | e :: t, k, v => if e.1 = k then (k, v) :: t else e :: alUpdate t k v

/-- Python `d.pop(k)`: remove the first binding of the key. -/
def alErase {α : Type} : List (String × α) → String → List (String × α)
  | [], _ => []
  | e :: t, k => if e.1 = k then t else e :: alErase t k

/-- The keys of an association list, in insertion order. -/
def alKeys {α : Type} (m : List (String × α)) : List String :=
  m.map Prod.fst

/-- Python `key.endswith(s)` via the underlying character lists. -/
def strEndsWith (k s : String) : Bool :=
  s.data.isSuffixOf k.data

/-- Per-key search metadata: `[lower_lim, upper_lim, pace, patience, m_greed]`
from `evolve.py`. -/
structure MetaRec where
  lower : ℚ
  upper : ℚ
  pace : ℚ
  patience : ℚ
  mGreed : ℤ
deriving DecidableEq

/-- The `(lower, upper, pace)` bounds/step profile of a metadata record. -/
def MetaRec.profile (r : MetaRec) : ℚ × ℚ × ℚ :=
  (r.lower, r.upper, r.pace)

/-- `META['unique']`: exact-match classification entries of `evolve.py`. -/
def metaUnique : List (String × (ℚ × ℚ × ℚ)) :=
  [(r"weight_decay", (0, 1, 1 / 100000)),
   (r"fl_gamma", (0, 3, 1 / 1000)),
   (r"hsv_h", (0, 1 / 10, 1 / 100)),
   (r"hsv_s", (0, 9 / 10, 1 / 100)),
   (r"hsv_v", (0, 9 / 10, 1 / 100))]

/-- `META['general']`: suffix-match classification entries of `evolve.py`. -/
def metaGeneral : List (String × (ℚ × ℚ × ℚ)) :=
  [(r"kernel", (1, 99, 2)),
   (r"width", (4, 2048, 4)),
   (r"depth", (1, 10, 1)),
   (r"float", (0, 10000000000, 1 / 100000000)),
   (r"uint", (0, 10000000000, 1)),
   (r"proba", (0, 1, 1 / 100))]

/-- All bounds/step profiles occurring in the classification table `META`. -/
def allProfiles : List (ℚ × ℚ × ℚ) :=
  metaUnique.map Prod.snd ++ metaGeneral.map Prod.snd

/-- Fresh metadata record for a profile: patience starts at the configured
initial patience, directional bias at `0` (`default_state` in `set_meta`). -/
def mkRec (p : ℚ × ℚ × ℚ) (p0 : ℚ) : MetaRec :=
  ⟨p.1, p.2.1, p.2.2, p0, 0⟩

/-- The underscore separating a key stem from its general suffix. -/
def usc : String := r"_"

/-- `HyperEvolve.set_meta`: classify each hyperparameter key.  First pass:
exact-match entries of `META['unique']` present among the keys, in table
order.  Second pass: for each suffix of `META['general']` in table order,
every key ending in `_suffix`, in key order.  Later assignments replace the
value in place, as Python `dict` assignment does. -/
def setMeta (hypKeys : List String) (p0 : ℚ) : List (String × MetaRec) :=
  let m1 := (metaUnique.filter (fun e => hypKeys.contains e.1)).foldl
    (fun m e => alUpdate m e.1 (mkRec e.2 p0)) []
  metaGeneral.foldl
    (fun m g =>
      (hypKeys.filter (fun k => strEndsWith k (usc ++ g.1))).foldl
        (fun m k => alUpdate m k (mkRec g.2 p0)) m)
    m1

/-- One row of the evaluation log:
`(epoch, hyp key, previous value, current value, momentum, fitness)`.
Modelled from the spec: the `Result` class is outside `src/`; the spec
specifies it as an append-only record with one row per epoch. -/
structure TrialRec where
  epoch : ℤ
  key : String
  previous : ℚ
  current : ℚ
  momentum : ℚ
  fitness : ℚ
deriving DecidableEq

/-- `self.result['fitness'].max()`, modelled from the spec: the maximum
fitness over the recorded rows (the empty-log value is never used, the
engine takes the baseline branch there). -/
def maxFitness : List TrialRec → ℚ
  | [] => 0
  | r :: t => t.foldl (fun a x => max a x.fitness) r.fitness

/-- The pseudorandom oracle: after `np.random.seed(seed)` every draw of the
epoch is a deterministic function of the seed.  `choiceKey` picks an index
into the (key, patience²)-weighted list; `choiceSign` models
`np.random.choice((-1, 1))`; `randint` models `np.random.randint(lo, hi)`. -/
structure Rng where
  choiceKey : ℕ → List (String × ℚ) → ℕ
  choiceSign : ℕ → ℤ
  randint : ℕ → ℤ → ℤ → ℤ

/-- The in-memory state of `HyperEvolve.__call__` between loop iterations. -/
structure LoopState where
  seed : ℕ
  epoch : ℤ
  bestFit : ℚ
  hyp : List (String × ℚ)
  meta : List (String × MetaRec)
  log : List TrialRec

/-- Fallback key (unused under a valid oracle). -/
def noKey : String := r""

/-- Default metadata record (unused under a valid oracle). -/
def defaultRec : MetaRec := ⟨0, 0, 1, 0, 0⟩

/-- `self.seed += 1` at the top of each loop iteration. -/
def stepSeed (s : LoopState) : ℕ := s.seed + 1

/-- Key selection: `np.random.choice(tuple(self.meta), p=p / p.sum())` with
weights `patience ** 2`, modelled as an oracle-chosen index into the
weighted key list. -/
def stepKey (rng : Rng) (s : LoopState) : String :=
  (s.meta.map Prod.fst).getD
    (rng.choiceKey (stepSeed s) (s.meta.map (fun e => (e.1, e.2.patience ^ 2))))
    noKey

/-- `self.meta[key]` for the selected key. -/
def stepRec (rng : Rng) (s : LoopState) : MetaRec :=
  (alLookup s.meta (stepKey rng s)).getD defaultRec

/-- `range_ = round((upper_lim - lower_lim) / pace)`. -/
def stepRange (rng : Rng) (s : LoopState) : ℤ :=
  pyRound (((stepRec rng s).upper - (stepRec rng s).lower) / (stepRec rng s).pace)

/-- `previous = round((self.hyp[key] - lower_lim) / pace)`. -/
def stepPrev (rng : Rng) (s : LoopState) : ℤ :=
  pyRound (((alLookup s.hyp (stepKey rng s)).getD 0 - (stepRec rng s).lower) / (stepRec rng s).pace)

/-- `m_forced = {0: 1, range_: -1}.get(previous, 0)`.  In the Python dict
literal the later key wins, so when `range_ == 0` the entry `0 ↦ -1`
shadows `0 ↦ 1`; lookup therefore tests `previous == range_` first. -/
def mForced (previous range_ : ℤ) : ℤ :=
  if previous = range_ then -1 else if previous = 0 then 1 else 0

/-- The resolved direction: a uniform draw from `{-1, 1}` when both
`m_greed` and `m_forced` are zero, otherwise `np.sign(m_greed + m_forced)`. -/
def stepMomentum (rng : Rng) (s : LoopState) : ℤ :=
  if (stepRec rng s).mGreed = 0 ∧ mForced (stepPrev rng s) (stepRange rng s) = 0 then
    rng.choiceSign (stepSeed s)
  else
    Int.sign ((stepRec rng s).mGreed + mForced (stepPrev rng s) (stepRange rng s))

/-- The drawn step magnitude
`np.random.randint(1, max((1, round(previous * mutation))) + 1)`. -/
def stepDraw (rng : Rng) (mutation : ℚ) (s : LoopState) : ℤ :=
  rng.randint (stepSeed s) 1 (max 1 (pyRound ((stepPrev rng s : ℚ) * mutation)) + 1)

/-- `current = np.clip(previous + momentum * draw, a_min=0, a_max=range_)`. -/
def stepCurrent (rng : Rng) (mutation : ℚ) (s : LoopState) : ℤ :=
  npClip (stepPrev rng s + stepMomentum rng s * stepDraw rng mutation s) 0 (stepRange rng s)

/-- The realized momentum
`round(np.clip((current - previous) / (previous + 1e-8), -1, 1), 3)`. -/
def stepRealM (rng : Rng) (mutation : ℚ) (s : LoopState) : ℚ :=
  pyRound3 (qclip (((stepCurrent rng mutation s : ℚ) - (stepPrev rng s : ℚ)) /
    ((stepPrev rng s : ℚ) + 1 / 100000000)) (-1) 1)

/-- `hyp[key] = current * pace + lower_lim`: the candidate value. -/
def stepCandVal (rng : Rng) (mutation : ℚ) (s : LoopState) : ℚ :=
  (stepCurrent rng mutation s : ℚ) * (stepRec rng s).pace + (stepRec rng s).lower

/-- `hyp = self.hyp.copy(); hyp[key] = candidate`: the candidate mapping. -/
def stepHypC (rng : Rng) (mutation : ℚ) (s : LoopState) : List (String × ℚ) :=
  alUpdate s.hyp (stepKey rng s) (stepCandVal rng mutation s)

/-- `fit = fitness(hyp, epoch)` with the already-incremented epoch. -/
def stepFit (rng : Rng) (fitness : List (String × ℚ) → ℤ → ℚ) (mutation : ℚ)
    (s : LoopState) : ℚ :=
  fitness (stepHypC rng mutation s) (s.epoch + 1)

/-- `better = fit - best_fit`. -/
def stepBetter (rng : Rng) (fitness : List (String × ℚ) → ℤ → ℚ) (mutation : ℚ)
    (s : LoopState) : ℚ :=
  stepFit rng fitness mutation s - s.bestFit

/-- `patience += 1 if better > 0 else -0.5` (before the clamp). -/
def stepPatience (rng : Rng) (fitness : List (String × ℚ) → ℤ → ℚ) (mutation : ℚ)
    (s : LoopState) : ℚ :=
  (stepRec rng s).patience + (if 0 < stepBetter rng fitness mutation s then 1 else -(1 / 2))

/-- The row recorded for a trial:
`(key, self.hyp[key], hyp[key], momentum, fit)` at the incremented epoch. -/
def stepRecord (rng : Rng) (fitness : List (String × ℚ) → ℤ → ℚ) (mutation : ℚ)
    (s : LoopState) : TrialRec :=
  ⟨s.epoch + 1, stepKey rng s, (alLookup s.hyp (stepKey rng s)).getD 0,
    stepCandVal rng mutation s, stepRealM rng mutation s,
    stepFit rng fitness mutation s⟩

/-- The updated metadata record:
`self.meta[key][-2:] = min((2 * self.patience, patience)), int(np.sign(momentum * better))`. -/
def stepNewRec (rng : Rng) (fitness : List (String × ℚ) → ℤ → ℚ) (mutation p0 : ℚ)
    (s : LoopState) : MetaRec :=
  { stepRec rng s with
    patience := min (2 * p0) (stepPatience rng fitness mutation s),
    mGreed := qsign (stepRealM rng mutation s * stepBetter rng fitness mutation s) }

/-- One iteration of the `while` body of `HyperEvolve.__call__`.  The second
component counts the fitness evaluations performed (0 on the skip-and-prune
branch, 1 on a trial). -/
def evolveStep (rng : Rng) (fitness : List (String × ℚ) → ℤ → ℚ) (mutation p0 : ℚ)
    (s : LoopState) : LoopState × ℕ :=
  if stepMomentum rng s = 0 then
    ({ s with seed := stepSeed s, meta := alErase s.meta (stepKey rng s) }, 0)
  else
    ({ seed := stepSeed s,
       epoch := s.epoch + 1,
       bestFit := if 0 < stepBetter rng fitness mutation s then
         stepFit rng fitness mutation s else s.bestFit,
       hyp := if 0 < stepBetter rng fitness mutation s then
         stepHypC rng mutation s else s.hyp,
       meta := if stepPatience rng fitness mutation s ≤ 0 then
         alErase (alUpdate s.meta (stepKey rng s) (stepNewRec rng fitness mutation p0 s)) (stepKey rng s)
       else alUpdate s.meta (stepKey rng s) (stepNewRec rng fitness mutation p0 s),
       log := s.log ++ [stepRecord rng fitness mutation s] }, 1)

/-- The `while epoch < epochs and self.meta` loop, with explicit fuel;
`none` means the fuel ran out before the loop condition failed. -/
def evolveLoop (rng : Rng) (fitness : List (String × ℚ) → ℤ → ℚ) (mutation p0 : ℚ)
    (budget : ℤ) : ℕ → LoopState → Option LoopState
  | 0, _ => none
  | fuel + 1, s =>
    if s.epoch < budget ∧ s.meta ≠ [] then
      evolveLoop rng fitness mutation p0 budget fuel (evolveStep rng fitness mutation p0 s).1
    else some s

/-- The label of the baseline row. -/
def baselineKey : String := r"baseline"

/-- The baseline row `('baseline', 0, 0, 0, best_fit)` recorded at epoch 0. -/
def baselineRec (f : ℚ) : TrialRec :=
  ⟨0, baselineKey, 0, 0, 0, f⟩

/-- `HyperEvolve.__call__` from the state after `save_or_load(save=False)`:
`epoch = len(self.result) - 1`, `best_fit = self.result['fitness'].max()`,
the baseline evaluation when the log is empty, then the search loop. -/
def evolveRun (rng : Rng) (fitness : List (String × ℚ) → ℤ → ℚ) (mutation p0 : ℚ)
    (budget : ℤ) (fuel : ℕ) (seed : ℕ) (hyp : List (String × ℚ))
    (meta : List (String × MetaRec)) (log : List TrialRec) : Option LoopState :=
  if log.isEmpty then
    evolveLoop rng fitness mutation p0 budget fuel
      ⟨seed, 0, fitness hyp 0, hyp, meta, log ++ [baselineRec (fitness hyp 0)]⟩
  else
    evolveLoop rng fitness mutation p0 budget fuel
      ⟨seed, (log.length : ℤ) - 1, maxFitness log, hyp, meta, log⟩

/-- The termination measure of the search loop: remaining epoch budget plus
the number of active keys. -/
def loopMeasure (budget : ℤ) (s : LoopState) : ℕ :=
  (budget - s.epoch).toNat + s.meta.length

/-! ### Shared concrete inputs for witnesses -/

/-- A concrete valid oracle: always picks the first key, sign `+1`, and the
lower end of each `randint` range. -/
def rngW : Rng := ⟨fun _ _ => 0, fun _ => 1, fun _ lo _ => lo⟩

/-- The key `hsv_h` of the classification table. -/
def kHsvH : String := r"hsv_h"

/-- A concrete state: `hsv_h = 0` (pinned at its lower bound), zero bias. -/
def sLow : LoopState :=
  ⟨0, 0, 0, [(kHsvH, 0)], [(kHsvH, ⟨0, 1 / 10, 1 / 100, 2, 0⟩)], []⟩

/-- A concrete state: `hsv_h = 0.05` (mid-range), zero bias. -/
def sMid : LoopState :=
  ⟨0, 0, 0, [(kHsvH, 1 / 20)], [(kHsvH, ⟨0, 1 / 10, 1 / 100, 2, 0⟩)], []⟩

/-- A concrete state: `hsv_h = 0` pinned at the lower bound with
directional bias `-1`, so forced and bias directions cancel. -/
def sCancel : LoopState :=
  ⟨0, 0, 0, [(kHsvH, 0)], [(kHsvH, ⟨0, 1 / 10, 1 / 100, 2, -1⟩)], []⟩

/-- A concrete fitness function that always returns 1. -/
def fitOne : List (String × ℚ) → ℤ → ℚ := fun _ _ => 1

/-- The key `weight_decay` of the classification table. -/
def kWD : String := r"weight_decay"

/-- A concrete hyperparameter key list holding one exact-match key and one
suffix-match key. -/
def hypKeysW : List String := [kWD, r"gb_kernel"]

/-- A concrete one-row log: the baseline row with fitness 5. -/
def logW : List TrialRec := [⟨0, baselineKey, 0, 0, 0, 5⟩]

/-- A different concrete one-row log with the same length and the same
maximum fitness as `logW`. -/
def logW2 : List TrialRec := [⟨0, kHsvH, 1, 2, 3, 5⟩]

/-! ### Association-list lemmas -/

theorem mem_alKeys_cons {α : Type} (e : String × α) (t : List (String × α)) (k : String) :
    k ∈ alKeys (e :: t) ↔ k = e.1 ∨ k ∈ alKeys t := by
  simp only [alKeys, List.map_cons, List.mem_cons]

theorem alKeys_nil {α : Type} : alKeys ([] : List (String × α)) = [] := rfl

theorem alLookup_update_self {α : Type} (m : List (String × α)) (k : String) (v : α) :
    alLookup (alUpdate m k v) k = some v := by
  induction m with
  | nil => simp [alUpdate, alLookup]
  | cons e t ih =>
    by_cases h : e.1 = k
    · simp [alUpdate, h, alLookup]
    · simp [alUpdate, h, alLookup, ih]

theorem alLookup_update_ne {α : Type} (m : List (String × α)) (k k' : String) (v : α)
    (h : k ≠ k') : alLookup (alUpdate m k' v) k = alLookup m k := by
  have h' : ¬(k' = k) := fun hh => h hh.symm
  induction m with
  | nil => simp [alUpdate, alLookup, h']
  | cons e t ih =>
    by_cases he : e.1 = k'
    · have hek : ¬(e.1 = k) := by rw [he]; exact h'
      simp only [alUpdate, if_pos he, alLookup, if_neg h', if_neg hek]
    · by_cases hk : e.1 = k
      · simp only [alUpdate, if_neg he, alLookup, if_pos hk]
      · simp only [alUpdate, if_neg he, alLookup, if_neg hk, ih]

theorem alKeys_update_subset {α : Type} (m : List (String × α)) (k a : String) (v : α)
    (h : a ∈ alKeys (alUpdate m k v)) : a ∈ alKeys m ∨ a = k := by
  induction m with
  | nil =>
    simp only [alUpdate] at h
    rcases (mem_alKeys_cons _ _ _).mp h with h1 | h1
    · exact Or.inr h1
    · simp [alKeys_nil] at h1
  | cons e t ih =>
    by_cases he : e.1 = k
    · simp only [alUpdate, if_pos he] at h
      rcases (mem_alKeys_cons _ _ _).mp h with h1 | h1
      · exact Or.inr h1
      · exact Or.inl ((mem_alKeys_cons e t a).mpr (Or.inr h1))
    · simp only [alUpdate, if_neg he] at h
      rcases (mem_alKeys_cons _ _ _).mp h with h1 | h1
      · exact Or.inl ((mem_alKeys_cons e t a).mpr (Or.inl h1))
      · rcases ih h1 with h2 | h2
        · exact Or.inl ((mem_alKeys_cons e t a).mpr (Or.inr h2))
        · exact Or.inr h2

theorem alKeys_update_mem {α : Type} (m : List (String × α)) (k : String) (v : α)
    (h : k ∈ alKeys m) : alKeys (alUpdate m k v) = alKeys m := by
  induction m with
  | nil => simp [alKeys_nil] at h
  | cons e t ih =>
    by_cases he : e.1 = k
    · simp only [alUpdate, if_pos he, alKeys, List.map_cons]
      rw [he]
    · rcases (mem_alKeys_cons e t k).mp h with h1 | h1
      · exact absurd h1.symm he
      · have ht := ih h1
        simp only [alKeys] at ht
        simp only [alUpdate, if_neg he, alKeys, List.map_cons, ht]

theorem alUpdate_length_mem {α : Type} (m : List (String × α)) (k : String) (v : α)
    (h : k ∈ alKeys m) : (alUpdate m k v).length = m.length := by
  induction m with
  | nil => simp [alKeys_nil] at h
  | cons e t ih =>
    by_cases he : e.1 = k
    · simp [alUpdate, if_pos he]
    · rcases (mem_alKeys_cons e t k).mp h with h1 | h1
      · exact absurd h1.symm he
      · simp [alUpdate, if_neg he, ih h1]

theorem alUpdate_mem {α : Type} (m : List (String × α)) (k k' : String) (v v' : α)
    (h : (k, v) ∈ alUpdate m k' v') : (k, v) ∈ m ∨ (k, v) = (k', v') := by
  induction m with
  | nil =>
    simp only [alUpdate, List.mem_singleton] at h
    exact Or.inr h
  | cons e t ih =>
    by_cases he : e.1 = k'
    · simp only [alUpdate, if_pos he, List.mem_cons] at h
      rcases h with h | h
      · exact Or.inr h
      · exact Or.inl (List.mem_cons_of_mem e h)
    · simp only [alUpdate, if_neg he, List.mem_cons] at h
      rcases h with h | h
      · exact Or.inl (List.mem_cons.mpr (Or.inl h))
      · rcases ih h with h2 | h2
        · exact Or.inl (List.mem_cons_of_mem e h2)
        · exact Or.inr h2

theorem alErase_sublist {α : Type} (m : List (String × α)) (k : String) :
    (alErase m k).Sublist m := by
  induction m with
  | nil => simp [alErase]
  | cons e t ih =>
    by_cases he : e.1 = k
    · simp only [alErase, if_pos he]
      exact List.sublist_cons_self e t
    · simp only [alErase, if_neg he]
      exact List.Sublist.cons₂ e ih

theorem alErase_mem {α : Type} (m : List (String × α)) (k : String) (x : String × α)
    (h : x ∈ alErase m k) : x ∈ m :=
  (alErase_sublist m k).mem h

theorem alKeys_erase_subset {α : Type} (m : List (String × α)) (k a : String)
    (h : a ∈ alKeys (alErase m k)) : a ∈ alKeys m := by
  rcases List.mem_map.mp h with ⟨x, hx, rfl⟩
  exact List.mem_map.mpr ⟨x, alErase_mem m k x hx, rfl⟩

theorem alErase_length_mem {α : Type} (m : List (String × α)) (k : String)
    (h : k ∈ alKeys m) : (alErase m k).length + 1 = m.length := by
  induction m with
  | nil => simp [alKeys_nil] at h
  | cons e t ih =>
    by_cases he : e.1 = k
    · simp [alErase, if_pos he]
    · rcases (mem_alKeys_cons e t k).mp h with h1 | h1
      · exact absurd h1.symm he
      · have := ih h1
        simp only [alErase, if_neg he, List.length_cons]
        omega

theorem alErase_length_le {α : Type} (m : List (String × α)) (k : String) :
    (alErase m k).length ≤ m.length :=
  (alErase_sublist m k).length_le

theorem alKeys_erase_not_mem {α : Type} (m : List (String × α)) (k : String)
    (hnd : (alKeys m).Nodup) : k ∉ alKeys (alErase m k) := by
  induction m with
  | nil => simp [alErase, alKeys_nil]
  | cons e t ih =>
    have hnd' : e.1 ∉ alKeys t ∧ (alKeys t).Nodup := by
      simpa only [alKeys, List.map_cons, List.nodup_cons] using hnd
    by_cases he : e.1 = k
    · simp only [alErase, if_pos he]
      intro hk
      exact hnd'.1 (by rw [he]; exact hk)
    · simp only [alErase, if_neg he]
      intro hk
      rcases (mem_alKeys_cons _ _ _).mp hk with h1 | h1
      · exact he h1.symm
      · exact ih hnd'.2 h1

theorem alKeys_update_nodup {α : Type} (m : List (String × α)) (k : String) (v : α)
    (hnd : (alKeys m).Nodup) : (alKeys (alUpdate m k v)).Nodup := by
  induction m with
  | nil => simp [alUpdate, alKeys]
  | cons e t ih =>
    have hnd' : e.1 ∉ alKeys t ∧ (alKeys t).Nodup := by
      simpa only [alKeys, List.map_cons, List.nodup_cons] using hnd
    by_cases he : e.1 = k
    · simp only [alUpdate, if_pos he, alKeys, List.map_cons, List.nodup_cons]
      refine ⟨fun hk => hnd'.1 (by rw [he]; exact hk), hnd'.2⟩
    · simp only [alUpdate, if_neg he, alKeys, List.map_cons, List.nodup_cons]
      refine ⟨fun hmem => ?_, ih hnd'.2⟩
      rcases alKeys_update_subset t k e.1 v hmem with h1 | h1
      · exact hnd'.1 h1
      · exact he h1

theorem alLookup_isSome_of_mem {α : Type} (m : List (String × α)) (k : String)
    (h : k ∈ alKeys m) : (alLookup m k).isSome := by
  induction m with
  | nil => simp [alKeys_nil] at h
  | cons e t ih =>
    by_cases he : e.1 = k
    · simp [alLookup, he]
    · rcases (mem_alKeys_cons e t k).mp h with h1 | h1
      · exact absurd h1.symm he
      · simp [alLookup, he, ih h1]

theorem alLookup_mem {α : Type} (m : List (String × α)) (k : String) (v : α)
    (h : alLookup m k = some v) : (k, v) ∈ m := by
  induction m with
  | nil => simp [alLookup] at h
  | cons e t ih =>
    by_cases he : e.1 = k
    · simp only [alLookup, if_pos he, Option.some.injEq] at h
      exact List.mem_cons.mpr (Or.inl (by rw [← he, ← h]))
    · simp only [alLookup, if_neg he] at h
      exact List.mem_cons_of_mem e (ih h)

/-! ### Fold lemmas for `setMeta` -/

theorem foldl_invariant {σ β : Type} (P : σ → Prop) (f : σ → β → σ) (l : List β) (s0 : σ)
    (h0 : P s0) (hstep : ∀ s b, b ∈ l → P s → P (f s b)) : P (l.foldl f s0) := by
  induction l generalizing s0 with
  | nil => exact h0
  | cons e t ih =>
    exact ih (f s0 e) (hstep s0 e (List.mem_cons_self e t) h0)
      (fun s b hb hp => hstep s b (List.mem_cons_of_mem e hb) hp)

theorem alLookup_foldl_update_ne {α β : Type} (f : β → String) (g : β → α) (l : List β)
    (m0 : List (String × α)) (k : String) (h : ∀ e ∈ l, f e ≠ k) :
    alLookup (l.foldl (fun m e => alUpdate m (f e) (g e)) m0) k = alLookup m0 k := by
  refine foldl_invariant (fun m => alLookup m k = alLookup m0 k) _ l m0 rfl ?_
  intro m b hb hp
  rw [alLookup_update_ne m k (f b) (g b) (fun hk => h b hb hk.symm)]
  exact hp

theorem alLookup_foldl_update_mem {α β : Type} (f : β → String) (g : β → α) (l : List β)
    (m0 : List (String × α)) (b : β) (hb : b ∈ l) (hnd : (l.map f).Nodup) :
    alLookup (l.foldl (fun m e => alUpdate m (f e) (g e)) m0) (f b) = some (g b) := by
  induction l generalizing m0 with
  | nil => simp at hb
  | cons e t ih =>
    have hnd' : f e ∉ t.map f ∧ (t.map f).Nodup := by
      simpa only [List.map_cons, List.nodup_cons] using hnd
    rcases List.mem_cons.mp hb with hb1 | hb1
    · subst hb1
      simp only [List.foldl_cons]
      rw [alLookup_foldl_update_ne f g t (alUpdate m0 (f b) (g b)) (f b) ?_]
      · exact alLookup_update_self m0 (f b) (g b)
      · intro e' he' hfe
        exact hnd'.1 (hfe ▸ List.mem_map_of_mem f he')
    · simp only [List.foldl_cons]
      exact ih (alUpdate m0 (f e) (g e)) hb1 hnd'.2

theorem alKeys_foldl_update_subset {α β : Type} (f : β → String) (g : β → α) (l : List β)
    (m0 : List (String × α)) (a : String)
    (h : a ∈ alKeys (l.foldl (fun m e => alUpdate m (f e) (g e)) m0)) :
    a ∈ alKeys m0 ∨ a ∈ l.map f := by
  refine foldl_invariant
    (fun m => a ∈ alKeys m → a ∈ alKeys m0 ∨ a ∈ l.map f) _ l m0 (fun hm => Or.inl hm) ?_ h
  intro m b hb hp hm
  rcases alKeys_update_subset m (f b) a (g b) hm with h1 | h1
  · exact hp h1
  · exact Or.inr (h1 ▸ List.mem_map_of_mem f hb)

theorem alKeys_foldl_update_nodup {α β : Type} (f : β → String) (g : β → α) (l : List β)
    (m0 : List (String × α)) (hnd : (alKeys m0).Nodup) :
    (alKeys (l.foldl (fun m e => alUpdate m (f e) (g e)) m0)).Nodup := by
  refine foldl_invariant (fun m => (alKeys m).Nodup) _ l m0 hnd ?_
  intro m b hb hp
  exact alKeys_update_nodup m (f b) (g b) hp

theorem mem_foldl_update {α β : Type} (f : β → String) (g : β → α) (l : List β)
    (m0 : List (String × α)) (k : String) (v : α)
    (h : (k, v) ∈ l.foldl (fun m e => alUpdate m (f e) (g e)) m0) :
    (k, v) ∈ m0 ∨ ∃ e ∈ l, v = g e := by
  refine foldl_invariant
    (fun m => (k, v) ∈ m → (k, v) ∈ m0 ∨ ∃ e ∈ l, v = g e) _ l m0 (fun hm => Or.inl hm) ?_ h
  intro m b hb hp hm
  rcases alUpdate_mem m k (f b) v (g b) hm with h1 | h1
  · exact hp h1
  · exact Or.inr ⟨b, hb, congrArg Prod.snd h1⟩

/-! ### `setMeta` lemmas -/

theorem setMeta_general_pass_ne (hypKeys : List String) (p0 : ℚ) (key : String)
    (gl : List (String × (ℚ × ℚ × ℚ))) (m : List (String × MetaRec))
    (hend : ∀ g ∈ gl, strEndsWith key (usc ++ g.1) = false) :
    alLookup (gl.foldl (fun m g =>
      (hypKeys.filter (fun k => strEndsWith k (usc ++ g.1))).foldl
        (fun m k => alUpdate m k (mkRec g.2 p0)) m) m) key = alLookup m key := by
  induction gl generalizing m with
  | nil => rfl
  | cons g t ih =>
    simp only [List.foldl_cons]
    rw [ih _ (fun g' hg' => hend g' (List.mem_cons_of_mem g hg'))]
    refine alLookup_foldl_update_ne (fun k => k) (fun _ => mkRec g.2 p0)
      (hypKeys.filter (fun k => strEndsWith k (usc ++ g.1))) m key ?_
    intro e he hek
    have hek' : e = key := hek
    have htrue : strEndsWith e (usc ++ g.1) = true := (List.mem_filter.mp he).2
    have hfalse : strEndsWith key (usc ++ g.1) = false := hend g (List.mem_cons_self g t)
    rw [hek', hfalse] at htrue
    exact Bool.false_ne_true htrue

theorem setMeta_lookup_unique (hypKeys : List String) (p0 : ℚ) (key : String)
    (prof : ℚ × ℚ × ℚ) (hmem : (key, prof) ∈ metaUnique) (hkey : key ∈ hypKeys) :
    alLookup (setMeta hypKeys p0) key = some (mkRec prof p0) := by
  have hend : ∀ g ∈ metaGeneral, strEndsWith key (usc ++ g.1) = false := by
    simp only [metaUnique, List.mem_cons, List.not_mem_nil, or_false, Prod.mk.injEq] at hmem
    rcases hmem with ⟨h1, h2⟩ | ⟨h1, h2⟩ | ⟨h1, h2⟩ | ⟨h1, h2⟩ | ⟨h1, h2⟩ <;> subst h1 <;> decide
  have hfl : (key, prof) ∈ metaUnique.filter (fun e => hypKeys.contains e.1) :=
    List.mem_filter.mpr ⟨hmem, List.elem_eq_true_of_mem hkey⟩
  have hnd : ((metaUnique.filter (fun e => hypKeys.contains e.1)).map Prod.fst).Nodup :=
    ((List.filter_sublist metaUnique).map Prod.fst).nodup (by decide)
  have hm1 := alLookup_foldl_update_mem Prod.fst (fun e => mkRec e.2 p0)
    (metaUnique.filter (fun e => hypKeys.contains e.1)) [] (key, prof) hfl hnd
  unfold setMeta
  rw [setMeta_general_pass_ne hypKeys p0 key metaGeneral _ hend]
  exact hm1

theorem setMeta_keys_subset (hypKeys : List String) (p0 : ℚ) (a : String)
    (h : a ∈ alKeys (setMeta hypKeys p0)) : a ∈ hypKeys := by
  unfold setMeta at h
  revert h
  refine foldl_invariant (fun m => a ∈ alKeys m → a ∈ hypKeys) _ metaGeneral _ ?_ ?_
  · intro h1
    rcases alKeys_foldl_update_subset Prod.fst (fun e => mkRec e.2 p0) _ [] a h1 with h2 | h2
    · simp [alKeys_nil] at h2
    · rcases List.mem_map.mp h2 with ⟨e, he, rfl⟩
      have : hypKeys.contains e.1 = true := by
        simpa using (List.mem_filter.mp he).2
      exact List.mem_of_elem_eq_true this
  · intro m g hg hp hm
    rcases alKeys_foldl_update_subset (fun k => k) (fun _ => mkRec g.2 p0) _ m a hm with h2 | h2
    · exact hp h2
    · rcases List.mem_map.mp h2 with ⟨e, he, rfl⟩
      exact List.mem_of_mem_filter he

theorem setMeta_patience (hypKeys : List String) (p0 : ℚ) (k : String) (rec : MetaRec)
    (h : (k, rec) ∈ setMeta hypKeys p0) : rec.patience = p0 := by
  unfold setMeta at h
  revert h
  refine foldl_invariant (fun m => (k, rec) ∈ m → rec.patience = p0) _ metaGeneral _ ?_ ?_
  · intro h1
    rcases mem_foldl_update Prod.fst (fun e => mkRec e.2 p0) _ [] k rec h1 with h2 | h2
    · simp at h2
    · rcases h2 with ⟨e, _, rfl⟩; rfl
  · intro m g hg hp hm
    rcases mem_foldl_update (fun e => e) (fun _ => mkRec g.2 p0) _ m k rec hm with h2 | h2
    · exact hp h2
    · rcases h2 with ⟨e, _, rfl⟩; rfl

theorem setMeta_keys_nodup (hypKeys : List String) (p0 : ℚ) :
    (alKeys (setMeta hypKeys p0)).Nodup := by
  unfold setMeta
  refine foldl_invariant (fun m => (alKeys m).Nodup) _ metaGeneral _ ?_ ?_
  · exact alKeys_foldl_update_nodup Prod.fst (fun e => mkRec e.2 p0) _ [] (by simp [alKeys])
  · intro m g hg hp
    exact alKeys_foldl_update_nodup (fun k => k) (fun _ => mkRec g.2 p0) _ m hp

/-! ### Profile facts -/

set_option maxRecDepth 8000 in
theorem allProfiles_range : ∀ p ∈ allProfiles, 1 ≤ pyRound ((p.2.1 - p.1) / p.2.2) := by
  decide

theorem stepRange_pos (rng : Rng) (s : LoopState)
    (hprof : (stepRec rng s).profile ∈ allProfiles) : 1 ≤ stepRange rng s := by
  have h := allProfiles_range (stepRec rng s).profile hprof
  simpa [stepRange, MetaRec.profile] using h


/-! ### Claims -/

/-- C2: for every key whose bounds/pace profile comes from the
classification table (every active key's does, and such profiles have
`range ≥ 1`) and whose directional bias is zero, `previous_index = 0`
resolves the direction to exactly `+1`, and `previous_index = range`
resolves it to exactly `-1`. -/
theorem boundary_forced_direction (rng : Rng) (s : LoopState)
    (hprof : (stepRec rng s).profile ∈ allProfiles)
    (hbias : (stepRec rng s).mGreed = 0) :
    (stepPrev rng s = 0 → stepMomentum rng s = 1) ∧
    (stepPrev rng s = stepRange rng s → stepMomentum rng s = -1) := by
  have hrange : 1 ≤ stepRange rng s := stepRange_pos rng s hprof
  constructor
  · intro hprev
    have hforced : mForced (stepPrev rng s) (stepRange rng s) = 1 := by
      unfold mForced
      rw [hprev, if_neg (by omega : ¬(0 : ℤ) = stepRange rng s), if_pos rfl]
    simp [stepMomentum, hbias, hforced]
  · intro hprev
    have hforced : mForced (stepPrev rng s) (stepRange rng s) = -1 := by
      simp [mForced, hprev]
    simp [stepMomentum, hbias, hforced]

/-- C2 witness: in the concrete state `sLow` the key `hsv_h` sits at its
lower bound with zero bias, and the resolved direction is `+1`. -/
theorem boundary_forced_direction_witness :
    (stepRec rngW sLow).profile ∈ allProfiles ∧ (stepRec rngW sLow).mGreed = 0 ∧
    stepPrev rngW sLow = 0 ∧ stepMomentum rngW sLow = 1 :=
  ⟨by decide, by decide, by decide,
    (boundary_forced_direction rngW sLow (by decide) (by decide)).1 (by decide)⟩

/-- C4: for every key whose bounds/pace profile comes from the
classification table, the clipped candidate index lies in `[0, range]`,
whatever the resolved direction and the drawn step magnitude. -/
theorem candidate_index_in_range (rng : Rng) (mutation : ℚ) (s : LoopState)
    (hprof : (stepRec rng s).profile ∈ allProfiles) :
    0 ≤ stepCurrent rng mutation s ∧ stepCurrent rng mutation s ≤ stepRange rng s := by
  have hrange : 1 ≤ stepRange rng s := stepRange_pos rng s hprof
  unfold stepCurrent npClip
  generalize stepPrev rng s + stepMomentum rng s * stepDraw rng mutation s = x
  omega

/-- C4 witness: in the concrete state `sMid` the candidate index is inside
`[0, range]`. -/
theorem candidate_index_in_range_witness :
    (stepRec rngW sMid).profile ∈ allProfiles ∧
    0 ≤ stepCurrent rngW (1 / 2) sMid ∧
    stepCurrent rngW (1 / 2) sMid ≤ stepRange rngW sMid :=
  ⟨by decide, (candidate_index_in_range rngW (1 / 2) sMid (by decide)).1,
    (candidate_index_in_range rngW (1 / 2) sMid (by decide)).2⟩


/-- C1: in every evaluated trial (resolved direction nonzero), a positive
improvement updates the stored mapping at the selected key to the candidate
value and updates the best known fitness; a non-positive improvement leaves
both the mapping and the best known fitness exactly as before. -/
theorem evolveStep_accept_reject_frame (rng : Rng)
    (fitness : List (String × ℚ) → ℤ → ℚ) (mutation p0 : ℚ) (s : LoopState)
    (hm : stepMomentum rng s ≠ 0) :
    (0 < stepBetter rng fitness mutation s →
      (evolveStep rng fitness mutation p0 s).1.hyp = stepHypC rng mutation s ∧
      (evolveStep rng fitness mutation p0 s).1.bestFit = stepFit rng fitness mutation s) ∧
    (stepBetter rng fitness mutation s ≤ 0 →
      (evolveStep rng fitness mutation p0 s).1.hyp = s.hyp ∧
      (evolveStep rng fitness mutation p0 s).1.bestFit = s.bestFit) := by
  unfold evolveStep
  rw [if_neg hm]
  constructor
  · intro hb
    constructor
    · show (if 0 < stepBetter rng fitness mutation s then stepHypC rng mutation s else s.hyp)
        = stepHypC rng mutation s
      rw [if_pos hb]
    · show (if 0 < stepBetter rng fitness mutation s then stepFit rng fitness mutation s
        else s.bestFit) = stepFit rng fitness mutation s
      rw [if_pos hb]
  · intro hb
    have hb' : ¬(0 < stepBetter rng fitness mutation s) := not_lt.mpr hb
    constructor
    · show (if 0 < stepBetter rng fitness mutation s then stepHypC rng mutation s else s.hyp)
        = s.hyp
      rw [if_neg hb']
    · show (if 0 < stepBetter rng fitness mutation s then stepFit rng fitness mutation s
        else s.bestFit) = s.bestFit
      rw [if_neg hb']

/-- C1 witness: in the concrete state `sMid` with a constant-1 fitness the
trial improves on the best fitness 0, so the mapping and best fitness are
both updated. -/
theorem evolveStep_accept_reject_frame_witness :
    stepMomentum rngW sMid ≠ 0 ∧ 0 < stepBetter rngW fitOne (1 / 2) sMid ∧
    (evolveStep rngW fitOne (1 / 2) 2 sMid).1.hyp = stepHypC rngW (1 / 2) sMid ∧
    (evolveStep rngW fitOne (1 / 2) 2 sMid).1.bestFit = stepFit rngW fitOne (1 / 2) sMid :=
  ⟨by decide, by decide,
    ((evolveStep_accept_reject_frame rngW fitOne (1 / 2) 2 sMid (by decide)).1 (by decide)).1,
    ((evolveStep_accept_reject_frame rngW fitOne (1 / 2) 2 sMid (by decide)).1 (by decide)).2⟩

/-- C5: when the resolved direction is zero (bias and forced direction
cancel), the iteration performs no fitness evaluation, appends no trial
record, leaves the epoch counter and the mapping unchanged, and removes the
selected key from the active metadata set. -/
theorem zero_direction_skip_prune (rng : Rng)
    (fitness : List (String × ℚ) → ℤ → ℚ) (mutation p0 : ℚ) (s : LoopState)
    (hm : stepMomentum rng s = 0) :
    (evolveStep rng fitness mutation p0 s).1.meta = alErase s.meta (stepKey rng s) ∧
    (evolveStep rng fitness mutation p0 s).2 = 0 ∧
    (evolveStep rng fitness mutation p0 s).1.log = s.log ∧
    (evolveStep rng fitness mutation p0 s).1.epoch = s.epoch ∧
    (evolveStep rng fitness mutation p0 s).1.hyp = s.hyp ∧
    ((alKeys s.meta).Nodup → stepKey rng s ∉ alKeys (evolveStep rng fitness mutation p0 s).1.meta) := by
  unfold evolveStep
  rw [if_pos hm]
  refine ⟨rfl, rfl, rfl, rfl, rfl, fun hnd => ?_⟩
  exact alKeys_erase_not_mem s.meta (stepKey rng s) hnd

/-- C5 witness: in the concrete state `sCancel` (`hsv_h` pinned at its lower
bound, bias `-1`) the direction resolves to 0; the epoch and log are
untouched, no evaluation happens, and the key leaves the active set. -/
theorem zero_direction_skip_prune_witness :
    stepMomentum rngW sCancel = 0 ∧ (alKeys sCancel.meta).Nodup ∧
    (evolveStep rngW fitOne (1 / 2) 2 sCancel).2 = 0 ∧
    (evolveStep rngW fitOne (1 / 2) 2 sCancel).1.log = sCancel.log ∧
    (evolveStep rngW fitOne (1 / 2) 2 sCancel).1.epoch = sCancel.epoch ∧
    stepKey rngW sCancel ∉ alKeys (evolveStep rngW fitOne (1 / 2) 2 sCancel).1.meta :=
  ⟨by decide, by decide,
    (zero_direction_skip_prune rngW fitOne (1 / 2) 2 sCancel (by decide)).2.1,
    (zero_direction_skip_prune rngW fitOne (1 / 2) 2 sCancel (by decide)).2.2.1,
    (zero_direction_skip_prune rngW fitOne (1 / 2) 2 sCancel (by decide)).2.2.2.1,
    (zero_direction_skip_prune rngW fitOne (1 / 2) 2 sCancel (by decide)).2.2.2.2.2 (by decide)⟩

theorem alKeys_mem_update {α : Type} (m : List (String × α)) (k : String) (v : α)
    (a : String) (h : a ∈ alKeys m) : a ∈ alKeys (alUpdate m k v) := by
  induction m with
  | nil => simp [alKeys_nil] at h
  | cons e t ih =>
    by_cases he : e.1 = k
    · rcases (mem_alKeys_cons e t a).mp h with h1 | h1
      · simp only [alUpdate, if_pos he]
        exact (mem_alKeys_cons _ t a).mpr (Or.inl (h1.trans he))
      · simp only [alUpdate, if_pos he]
        exact (mem_alKeys_cons _ t a).mpr (Or.inr h1)
    · rcases (mem_alKeys_cons e t a).mp h with h1 | h1
      · simp only [alUpdate, if_neg he]
        exact (mem_alKeys_cons e _ a).mpr (Or.inl h1)
      · simp only [alUpdate, if_neg he]
        exact (mem_alKeys_cons e _ a).mpr (Or.inr (ih h1))

/-- C8: a hyperparameter key that matches an exact-match entry of the
classification table receives exactly that entry's `(lower, upper, pace)`
profile — in particular a key that also matches a general suffix carries
the exact-match profile only — and the metadata maps each key to a single
record (no double registration). -/
theorem exact_match_priority (hypKeys : List String) (p0 : ℚ) (key : String)
    (prof : ℚ × ℚ × ℚ) (hmem : (key, prof) ∈ metaUnique) (hkey : key ∈ hypKeys) :
    alLookup (setMeta hypKeys p0) key = some (mkRec prof p0) ∧
    (alKeys (setMeta hypKeys p0)).Nodup :=
  ⟨setMeta_lookup_unique hypKeys p0 key prof hmem hkey, setMeta_keys_nodup hypKeys p0⟩

/-- C8 witness: with keys `[weight_decay, gb_kernel]`, the key
`weight_decay` (an exact-match entry) gets the exact profile
`(0, 1, 1e-5)` and the metadata keys are duplicate-free. -/
theorem exact_match_priority_witness :
    (kWD, ((0 : ℚ), (1 : ℚ), (1 / 100000 : ℚ))) ∈ metaUnique ∧ kWD ∈ hypKeysW ∧
    alLookup (setMeta hypKeysW 2) kWD = some (mkRec (0, 1, 1 / 100000) 2) ∧
    (alKeys (setMeta hypKeysW 2)).Nodup :=
  ⟨by decide, by decide,
    (exact_match_priority hypKeysW 2 kWD (0, 1, 1 / 100000) (by decide) (by decide)).1,
    (exact_match_priority hypKeysW 2 kWD (0, 1, 1 / 100000) (by decide) (by decide)).2⟩

/-- C9: keys of the active metadata set are always hyperparameter keys:
`set_meta` registers only keys of the mapping; one search-loop iteration
preserves the containment of metadata keys in mapping keys; and the
iteration never adds a metadata key — every metadata key afterwards was a
metadata key before. -/
theorem meta_keys_subset_hyp (hypKeys : List String) (p0 : ℚ) (rng : Rng)
    (fitness : List (String × ℚ) → ℤ → ℚ) (mutation q0 : ℚ) (s : LoopState) :
    (∀ a ∈ alKeys (setMeta hypKeys p0), a ∈ hypKeys) ∧
    (stepKey rng s ∈ alKeys s.meta →
      (∀ a ∈ alKeys s.meta, a ∈ alKeys s.hyp) →
      ∀ a ∈ alKeys (evolveStep rng fitness mutation q0 s).1.meta,
        a ∈ alKeys (evolveStep rng fitness mutation q0 s).1.hyp) ∧
    (stepKey rng s ∈ alKeys s.meta →
      ∀ a ∈ alKeys (evolveStep rng fitness mutation q0 s).1.meta, a ∈ alKeys s.meta) := by
  have h3 : stepKey rng s ∈ alKeys s.meta →
      ∀ a ∈ alKeys (evolveStep rng fitness mutation q0 s).1.meta, a ∈ alKeys s.meta := by
    intro hk a ha
    unfold evolveStep at ha
    by_cases hm : stepMomentum rng s = 0
    · rw [if_pos hm] at ha
      exact alKeys_erase_subset s.meta (stepKey rng s) a ha
    · rw [if_neg hm] at ha
      have ha' : a ∈ alKeys (if stepPatience rng fitness mutation s ≤ 0 then
          alErase (alUpdate s.meta (stepKey rng s) (stepNewRec rng fitness mutation q0 s))
            (stepKey rng s)
          else alUpdate s.meta (stepKey rng s) (stepNewRec rng fitness mutation q0 s)) := ha
      by_cases hp : stepPatience rng fitness mutation s ≤ 0
      · rw [if_pos hp] at ha'
        have h2 := alKeys_erase_subset _ (stepKey rng s) a ha'
        rw [alKeys_update_mem s.meta (stepKey rng s) _ hk] at h2
        exact h2
      · rw [if_neg hp] at ha'
        rw [alKeys_update_mem s.meta (stepKey rng s) _ hk] at ha'
        exact ha'
  refine ⟨setMeta_keys_subset hypKeys p0, ?_, h3⟩
  intro hk hsub a ha
  have hh := hsub a (h3 hk a ha)
  unfold evolveStep
  by_cases hm : stepMomentum rng s = 0
  · rw [if_pos hm]
    exact hh
  · rw [if_neg hm]
    show a ∈ alKeys (if 0 < stepBetter rng fitness mutation s then
      stepHypC rng mutation s else s.hyp)
    by_cases hb : 0 < stepBetter rng fitness mutation s
    · rw [if_pos hb]
      exact alKeys_mem_update s.hyp (stepKey rng s) (stepCandVal rng mutation s) a hh
    · rw [if_neg hb]
      exact hh

/-- C9 witness: the containments at the concrete inputs `hypKeysW` and
`sMid`. -/
theorem meta_keys_subset_hyp_witness :
    kWD ∈ alKeys (setMeta hypKeysW 2) ∧ kWD ∈ hypKeysW ∧
    stepKey rngW sMid ∈ alKeys sMid.meta ∧
    kHsvH ∈ alKeys (evolveStep rngW fitOne (1 / 2) 2 sMid).1.meta ∧
    kHsvH ∈ alKeys sMid.meta :=
  ⟨by decide,
    (meta_keys_subset_hyp hypKeysW 2 rngW fitOne (1 / 2) 2 sMid).1 kWD (by decide),
    by decide, by decide,
    (meta_keys_subset_hyp hypKeysW 2 rngW fitOne (1 / 2) 2 sMid).2.2 (by decide) kHsvH (by decide)⟩

/-- C3: with a positive initial patience, (i) freshly built metadata
respects `patience ≤ 2 * initial`, (ii) one search iteration preserves that
bound for every stored record (the update stores
`min(2 * initial, patience ± …)`), and (iii) in an evaluated trial the
selected key leaves the active set exactly when its updated stored
patience is `≤ 0`. -/
theorem patience_invariant_and_removal (hypKeys : List String) (rng : Rng)
    (fitness : List (String × ℚ) → ℤ → ℚ) (mutation p0 : ℚ) (s : LoopState)
    (hp0 : 0 < p0) :
    (∀ k rec, (k, rec) ∈ setMeta hypKeys p0 → rec.patience ≤ 2 * p0) ∧
    ((∀ k rec, (k, rec) ∈ s.meta → rec.patience ≤ 2 * p0) →
      ∀ k rec, (k, rec) ∈ (evolveStep rng fitness mutation p0 s).1.meta →
        rec.patience ≤ 2 * p0) ∧
    (stepMomentum rng s ≠ 0 → (alKeys s.meta).Nodup → stepKey rng s ∈ alKeys s.meta →
      (stepKey rng s ∉ alKeys (evolveStep rng fitness mutation p0 s).1.meta ↔
        min (2 * p0) (stepPatience rng fitness mutation s) ≤ 0)) := by
  refine ⟨?_, ?_, ?_⟩
  · intro k rec hmem
    rw [setMeta_patience hypKeys p0 k rec hmem]
    linarith
  · intro hall k rec hmem
    unfold evolveStep at hmem
    by_cases hm : stepMomentum rng s = 0
    · rw [if_pos hm] at hmem
      exact hall k rec (alErase_mem s.meta (stepKey rng s) (k, rec) hmem)
    · rw [if_neg hm] at hmem
      have hmem' : (k, rec) ∈ (if stepPatience rng fitness mutation s ≤ 0 then
          alErase (alUpdate s.meta (stepKey rng s) (stepNewRec rng fitness mutation p0 s))
            (stepKey rng s)
          else alUpdate s.meta (stepKey rng s) (stepNewRec rng fitness mutation p0 s)) := hmem
      have hupd : (k, rec) ∈ alUpdate s.meta (stepKey rng s)
          (stepNewRec rng fitness mutation p0 s) := by
        by_cases hp : stepPatience rng fitness mutation s ≤ 0
        · rw [if_pos hp] at hmem'
          exact alErase_mem _ (stepKey rng s) (k, rec) hmem'
        · rw [if_neg hp] at hmem'
          exact hmem'
      rcases alUpdate_mem s.meta k (stepKey rng s) rec
        (stepNewRec rng fitness mutation p0 s) hupd with h1 | h1
      · exact hall k rec h1
      · have hrec : rec = stepNewRec rng fitness mutation p0 s := congrArg Prod.snd h1
        rw [hrec]
        exact min_le_left (2 * p0) (stepPatience rng fitness mutation s)
  · intro hm hnd hk
    by_cases hp : stepPatience rng fitness mutation s ≤ 0
    · have hmeta : (evolveStep rng fitness mutation p0 s).1.meta
          = alErase (alUpdate s.meta (stepKey rng s) (stepNewRec rng fitness mutation p0 s))
            (stepKey rng s) := by
        unfold evolveStep
        rw [if_neg hm]
        show (if stepPatience rng fitness mutation s ≤ 0 then
          alErase (alUpdate s.meta (stepKey rng s) (stepNewRec rng fitness mutation p0 s))
            (stepKey rng s)
          else alUpdate s.meta (stepKey rng s) (stepNewRec rng fitness mutation p0 s)) = _
        rw [if_pos hp]
      rw [hmeta]
      have hnd' : (alKeys (alUpdate s.meta (stepKey rng s)
          (stepNewRec rng fitness mutation p0 s))).Nodup := by
        rw [alKeys_update_mem s.meta (stepKey rng s) _ hk]
        exact hnd
      exact iff_of_true (alKeys_erase_not_mem _ (stepKey rng s) hnd')
        (le_trans (min_le_right _ _) hp)
    · have hmeta : (evolveStep rng fitness mutation p0 s).1.meta
          = alUpdate s.meta (stepKey rng s) (stepNewRec rng fitness mutation p0 s) := by
        unfold evolveStep
        rw [if_neg hm]
        show (if stepPatience rng fitness mutation s ≤ 0 then
          alErase (alUpdate s.meta (stepKey rng s) (stepNewRec rng fitness mutation p0 s))
            (stepKey rng s)
          else alUpdate s.meta (stepKey rng s) (stepNewRec rng fitness mutation p0 s)) = _
        rw [if_neg hp]
      rw [hmeta]
      have hkin : stepKey rng s ∈ alKeys (alUpdate s.meta (stepKey rng s)
          (stepNewRec rng fitness mutation p0 s)) := by
        rw [alKeys_update_mem s.meta (stepKey rng s) _ hk]
        exact hk
      have hpos : 0 < min (2 * p0) (stepPatience rng fitness mutation s) :=
        lt_min (by linarith) (by linarith [not_le.mp hp])
      exact iff_of_false (fun hno => hno hkin) (not_le.mpr hpos)

/-- C3 witness: with initial patience 2, after the improving trial in `sMid`
the stored patience is `min(4, 3) = 3 > 0` and the key accordingly stays in
the active set. -/
theorem patience_invariant_and_removal_witness :
    0 < (2 : ℚ) ∧ stepMomentum rngW sMid ≠ 0 ∧ (alKeys sMid.meta).Nodup ∧
    stepKey rngW sMid ∈ alKeys sMid.meta ∧
    (stepKey rngW sMid ∉ alKeys (evolveStep rngW fitOne (1 / 2) 2 sMid).1.meta ↔
      min (2 * 2) (stepPatience rngW fitOne (1 / 2) sMid) ≤ 0) :=
  ⟨by decide, by decide, by decide, by decide,
    (patience_invariant_and_removal hypKeysW rngW fitOne (1 / 2) 2 sMid
      (by decide)).2.2 (by decide) (by decide) (by decide)⟩

theorem stepKey_mem (rng : Rng) (s : LoopState)
    (hv : ∀ seed l, l ≠ [] → rng.choiceKey seed l < l.length)
    (hne : s.meta ≠ []) : stepKey rng s ∈ alKeys s.meta := by
  unfold stepKey
  have hlen : rng.choiceKey (stepSeed s) (s.meta.map (fun e => (e.1, e.2.patience ^ 2)))
      < (s.meta.map Prod.fst).length := by
    have h1 := hv (stepSeed s) (s.meta.map (fun e => (e.1, e.2.patience ^ 2)))
      (fun hemp => hne (List.map_eq_nil_iff.mp hemp))
    simpa using h1
  rw [List.getD_eq_getElem (s.meta.map Prod.fst) noKey hlen]
  exact List.getElem_mem hlen

theorem loopMeasure_decrease (rng : Rng) (fitness : List (String × ℚ) → ℤ → ℚ)
    (mutation p0 : ℚ) (budget : ℤ) (s : LoopState)
    (hv : ∀ seed l, l ≠ [] → rng.choiceKey seed l < l.length)
    (hguard : s.epoch < budget ∧ s.meta ≠ []) :
    loopMeasure budget (evolveStep rng fitness mutation p0 s).1 < loopMeasure budget s := by
  have hk := stepKey_mem rng s hv hguard.2
  unfold loopMeasure evolveStep
  by_cases hm : stepMomentum rng s = 0
  · rw [if_pos hm]
    show (budget - s.epoch).toNat + (alErase s.meta (stepKey rng s)).length
      < (budget - s.epoch).toNat + s.meta.length
    have hlen := alErase_length_mem s.meta (stepKey rng s) hk
    omega
  · rw [if_neg hm]
    show (budget - (s.epoch + 1)).toNat
        + (if stepPatience rng fitness mutation s ≤ 0 then
            alErase (alUpdate s.meta (stepKey rng s) (stepNewRec rng fitness mutation p0 s))
              (stepKey rng s)
          else alUpdate s.meta (stepKey rng s) (stepNewRec rng fitness mutation p0 s)).length
      < (budget - s.epoch).toNat + s.meta.length
    have hup : (alUpdate s.meta (stepKey rng s)
        (stepNewRec rng fitness mutation p0 s)).length = s.meta.length :=
      alUpdate_length_mem s.meta (stepKey rng s) _ hk
    have hlen : (if stepPatience rng fitness mutation s ≤ 0 then
          alErase (alUpdate s.meta (stepKey rng s) (stepNewRec rng fitness mutation p0 s))
            (stepKey rng s)
        else alUpdate s.meta (stepKey rng s) (stepNewRec rng fitness mutation p0 s)).length
        ≤ s.meta.length := by
      by_cases hp : stepPatience rng fitness mutation s ≤ 0
      · rw [if_pos hp]
        exact le_trans (alErase_length_le _ (stepKey rng s)) (le_of_eq hup)
      · rw [if_neg hp]
        exact le_of_eq hup
    have hb := hguard.1
    omega

/-- C10: the search loop terminates for every fitness function, epoch
budget and state: under a valid oracle (`np.random.choice` returns an
element of the key list) every iteration either increments the epoch
(bounded by the budget) or strictly shrinks the finite active metadata
set, so fuel exceeding `loopMeasure` always suffices to reach the loop's
exit. -/
theorem search_loop_terminates (rng : Rng) (fitness : List (String × ℚ) → ℤ → ℚ)
    (mutation p0 : ℚ) (budget : ℤ) (fuel : ℕ) : ∀ s : LoopState,
    (∀ seed l, l ≠ [] → rng.choiceKey seed l < l.length) →
    loopMeasure budget s < fuel →
    (evolveLoop rng fitness mutation p0 budget fuel s).isSome := by
  induction fuel with
  | zero =>
    intro s hv hlt
    exact absurd hlt (Nat.not_lt_zero _)
  | succ fuel ih =>
    intro s hv hlt
    unfold evolveLoop
    by_cases hg : s.epoch < budget ∧ s.meta ≠ []
    · rw [if_pos hg]
      exact ih _ hv (lt_of_lt_of_le
        (loopMeasure_decrease rng fitness mutation p0 budget s hv hg)
        (Nat.lt_succ_iff.mp hlt))
    · rw [if_neg hg]
      rfl

/-- C10 witness: with the concrete oracle `rngW` (which always picks index
0) and budget 3, the loop from `sMid` with fuel 10 reaches its exit. -/
theorem search_loop_terminates_witness :
    loopMeasure 3 sMid < 10 ∧
    (evolveLoop rngW fitOne (1 / 2) 2 3 10 sMid).isSome :=
  ⟨by decide,
    search_loop_terminates rngW fitOne (1 / 2) 2 3 10 sMid
      (fun seed l h => List.length_pos.mpr h) (by decide)⟩

/-- C7: calling the engine with an epoch budget equal to the number of
already-completed epochs (log length minus one) runs no trial: the result
keeps the log, the mapping, the metadata and the seed exactly as loaded. -/
theorem completed_budget_idempotent (rng : Rng)
    (fitness : List (String × ℚ) → ℤ → ℚ) (mutation p0 : ℚ) (fuel : ℕ) (seed : ℕ)
    (hyp : List (String × ℚ)) (meta : List (String × MetaRec)) (log : List TrialRec)
    (hne : log ≠ []) :
    evolveRun rng fitness mutation p0 ((log.length : ℤ) - 1) (fuel + 1) seed hyp meta log
      = some ⟨seed, (log.length : ℤ) - 1, maxFitness log, hyp, meta, log⟩ := by
  unfold evolveRun
  have hemp : ¬(log.isEmpty = true) := fun h => hne (List.isEmpty_iff.mp h)
  rw [if_neg hemp]
  unfold evolveLoop
  rw [if_neg (fun h => absurd h.1 (lt_irrefl _))]

/-- C7 witness: with the one-row log `logW` and budget `0 = length - 1`,
the run returns the loaded state unchanged. -/
theorem completed_budget_idempotent_witness :
    logW ≠ [] ∧
    evolveRun rngW fitOne (1 / 2) 2 ((logW.length : ℤ) - 1) 10 7 sMid.hyp sMid.meta logW
      = some ⟨7, (logW.length : ℤ) - 1, maxFitness logW, sMid.hyp, sMid.meta, logW⟩ :=
  ⟨by decide,
    completed_budget_idempotent rngW fitOne (1 / 2) 2 9 7 sMid.hyp sMid.meta logW (by decide)⟩

/-! ### The loop reads the log only through its length and maximum -/

theorem stepSeed_log (se : ℕ) (e : ℤ) (b : ℚ) (hy : List (String × ℚ))
    (m : List (String × MetaRec)) (l : List TrialRec) :
    stepSeed ⟨se, e, b, hy, m, l⟩ = stepSeed ⟨se, e, b, hy, m, []⟩ := rfl

theorem stepKey_log (rng : Rng) (se : ℕ) (e : ℤ) (b : ℚ) (hy : List (String × ℚ))
    (m : List (String × MetaRec)) (l : List TrialRec) :
    stepKey rng ⟨se, e, b, hy, m, l⟩ = stepKey rng ⟨se, e, b, hy, m, []⟩ := rfl

theorem stepMomentum_log (rng : Rng) (se : ℕ) (e : ℤ) (b : ℚ) (hy : List (String × ℚ))
    (m : List (String × MetaRec)) (l : List TrialRec) :
    stepMomentum rng ⟨se, e, b, hy, m, l⟩ = stepMomentum rng ⟨se, e, b, hy, m, []⟩ := rfl

theorem stepHypC_log (rng : Rng) (mutation : ℚ) (se : ℕ) (e : ℤ) (b : ℚ)
    (hy : List (String × ℚ)) (m : List (String × MetaRec)) (l : List TrialRec) :
    stepHypC rng mutation ⟨se, e, b, hy, m, l⟩
      = stepHypC rng mutation ⟨se, e, b, hy, m, []⟩ := rfl

theorem stepFit_log (rng : Rng) (fitness : List (String × ℚ) → ℤ → ℚ) (mutation : ℚ)
    (se : ℕ) (e : ℤ) (b : ℚ) (hy : List (String × ℚ)) (m : List (String × MetaRec))
    (l : List TrialRec) :
    stepFit rng fitness mutation ⟨se, e, b, hy, m, l⟩
      = stepFit rng fitness mutation ⟨se, e, b, hy, m, []⟩ := rfl

theorem stepBetter_log (rng : Rng) (fitness : List (String × ℚ) → ℤ → ℚ) (mutation : ℚ)
    (se : ℕ) (e : ℤ) (b : ℚ) (hy : List (String × ℚ)) (m : List (String × MetaRec))
    (l : List TrialRec) :
    stepBetter rng fitness mutation ⟨se, e, b, hy, m, l⟩
      = stepBetter rng fitness mutation ⟨se, e, b, hy, m, []⟩ := rfl

theorem stepPatience_log (rng : Rng) (fitness : List (String × ℚ) → ℤ → ℚ) (mutation : ℚ)
    (se : ℕ) (e : ℤ) (b : ℚ) (hy : List (String × ℚ)) (m : List (String × MetaRec))
    (l : List TrialRec) :
    stepPatience rng fitness mutation ⟨se, e, b, hy, m, l⟩
      = stepPatience rng fitness mutation ⟨se, e, b, hy, m, []⟩ := rfl

theorem stepRecord_log (rng : Rng) (fitness : List (String × ℚ) → ℤ → ℚ) (mutation : ℚ)
    (se : ℕ) (e : ℤ) (b : ℚ) (hy : List (String × ℚ)) (m : List (String × MetaRec))
    (l : List TrialRec) :
    stepRecord rng fitness mutation ⟨se, e, b, hy, m, l⟩
      = stepRecord rng fitness mutation ⟨se, e, b, hy, m, []⟩ := rfl

theorem stepNewRec_log (rng : Rng) (fitness : List (String × ℚ) → ℤ → ℚ) (mutation p0 : ℚ)
    (se : ℕ) (e : ℤ) (b : ℚ) (hy : List (String × ℚ)) (m : List (String × MetaRec))
    (l : List TrialRec) :
    stepNewRec rng fitness mutation p0 ⟨se, e, b, hy, m, l⟩
      = stepNewRec rng fitness mutation p0 ⟨se, e, b, hy, m, []⟩ := rfl

theorem evolveStep_log (rng : Rng) (fitness : List (String × ℚ) → ℤ → ℚ)
    (mutation p0 : ℚ) (se : ℕ) (e : ℤ) (b : ℚ) (hy : List (String × ℚ))
    (m : List (String × MetaRec)) (l : List TrialRec) :
    evolveStep rng fitness mutation p0 ⟨se, e, b, hy, m, l⟩ =
      ({(evolveStep rng fitness mutation p0 ⟨se, e, b, hy, m, []⟩).1 with
          log := l ++ (evolveStep rng fitness mutation p0 ⟨se, e, b, hy, m, []⟩).1.log},
        (evolveStep rng fitness mutation p0 ⟨se, e, b, hy, m, []⟩).2) := by
  unfold evolveStep
  simp only [stepMomentum_log, stepSeed_log, stepKey_log, stepNewRec_log, stepPatience_log,
    stepBetter_log, stepFit_log, stepHypC_log, stepRecord_log]
  by_cases hm : stepMomentum rng ⟨se, e, b, hy, m, []⟩ = 0
  · rw [if_pos hm, if_pos hm]
    simp
  · rw [if_neg hm, if_neg hm]
    simp

theorem evolveLoop_log (rng : Rng) (fitness : List (String × ℚ) → ℤ → ℚ)
    (mutation p0 : ℚ) (budget : ℤ) : ∀ (fuel : ℕ) (se : ℕ) (e : ℤ) (b : ℚ)
    (hy : List (String × ℚ)) (m : List (String × MetaRec)) (l : List TrialRec),
    evolveLoop rng fitness mutation p0 budget fuel ⟨se, e, b, hy, m, l⟩ =
      (evolveLoop rng fitness mutation p0 budget fuel ⟨se, e, b, hy, m, []⟩).map
        (fun r => {r with log := l ++ r.log}) := by
  intro fuel
  induction fuel with
  | zero => intro se e b hy m l; rfl
  | succ fuel ih =>
    intro se e b hy m l
    show (if e < budget ∧ m ≠ [] then
        evolveLoop rng fitness mutation p0 budget fuel
          (evolveStep rng fitness mutation p0 ⟨se, e, b, hy, m, l⟩).1
      else some ⟨se, e, b, hy, m, l⟩) =
      ((if e < budget ∧ m ≠ [] then
        evolveLoop rng fitness mutation p0 budget fuel
          (evolveStep rng fitness mutation p0 ⟨se, e, b, hy, m, []⟩).1
      else some ⟨se, e, b, hy, m, []⟩).map (fun r => {r with log := l ++ r.log}))
    by_cases hg : e < budget ∧ m ≠ []
    · rw [if_pos hg, if_pos hg]
      rw [evolveStep_log rng fitness mutation p0 se e b hy m l]
      rcases hstep : evolveStep rng fitness mutation p0 ⟨se, e, b, hy, m, []⟩ with ⟨⟨se', e', b', hy', m', dl⟩, n⟩
      show evolveLoop rng fitness mutation p0 budget fuel ⟨se', e', b', hy', m', l ++ dl⟩ =
        (evolveLoop rng fitness mutation p0 budget fuel ⟨se', e', b', hy', m', dl⟩).map
          (fun r => {r with log := l ++ r.log})
      rw [ih se' e' b' hy' m' (l ++ dl), ih se' e' b' hy' m' dl]
      cases evolveLoop rng fitness mutation p0 budget fuel ⟨se', e', b', hy', m', []⟩ with
      | none => rfl
      | some r => simp [List.append_assoc]
    · rw [if_neg hg, if_neg hg]
      simp

/-- C6: the engine reads the trial log only through its length and its
maximum fitness, and every epoch's randomness is a function of the
seed alone; hence two runs from an identical saved state (seed, mapping,
metadata) with the same oracle, fitness function and budget append
identical sequences of new trial records, even over logs with different
contents. -/
theorem resume_determinism (rng : Rng) (fitness : List (String × ℚ) → ℤ → ℚ)
    (mutation p0 : ℚ) (budget : ℤ) (fuel : ℕ) (seed : ℕ) (hyp : List (String × ℚ))
    (meta : List (String × MetaRec)) (log1 log2 : List TrialRec)
    (hlen : log1.length = log2.length) (hmax : maxFitness log1 = maxFitness log2) :
    (evolveRun rng fitness mutation p0 budget fuel seed hyp meta log1).map
        (fun r => r.log.drop log1.length)
      = (evolveRun rng fitness mutation p0 budget fuel seed hyp meta log2).map
        (fun r => r.log.drop log2.length) := by
  by_cases hemp : log1.isEmpty = true
  · have h1 : log1 = [] := List.isEmpty_iff.mp hemp
    subst h1
    have h2 : log2 = [] := List.length_eq_zero.mp hlen.symm
    subst h2
    rfl
  · have h1ne : log1 ≠ [] := fun h => hemp (by rw [h]; rfl)
    have h2ne : log2 ≠ [] := by
      intro h
      apply h1ne
      apply List.length_eq_zero.mp
      rw [hlen, h]
      rfl
    have hemp2 : ¬(log2.isEmpty = true) := fun h => h2ne (List.isEmpty_iff.mp h)
    unfold evolveRun
    rw [if_neg hemp, if_neg hemp2]
    rw [evolveLoop_log rng fitness mutation p0 budget fuel seed ((log1.length : ℤ) - 1)
      (maxFitness log1) hyp meta log1]
    rw [evolveLoop_log rng fitness mutation p0 budget fuel seed ((log2.length : ℤ) - 1)
      (maxFitness log2) hyp meta log2]
    rw [hlen, hmax]
    generalize evolveLoop rng fitness mutation p0 budget fuel
      ⟨seed, (log2.length : ℤ) - 1, maxFitness log2, hyp, meta, []⟩ = o
    cases o with
    | none => rfl
    | some r =>
      have e1 : (log1 ++ r.log).drop log2.length = r.log := by
        rw [← hlen]
        exact List.drop_left log1 r.log
      have e2 : (log2 ++ r.log).drop log2.length = r.log := List.drop_left log2 r.log
      simp [e1, e2]

/-- C6 witness: the logs `logW` and `logW2` differ in content but share
length 1 and maximum fitness 5; the two runs append identical new trial
records. -/
theorem resume_determinism_witness :
    logW.length = logW2.length ∧ maxFitness logW = maxFitness logW2 ∧
    (evolveRun rngW fitOne (1 / 2) 2 3 10 0 sMid.hyp sMid.meta logW).map
        (fun r => r.log.drop logW.length)
      = (evolveRun rngW fitOne (1 / 2) 2 3 10 0 sMid.hyp sMid.meta logW2).map
        (fun r => r.log.drop logW2.length) :=
  ⟨rfl, by decide,
    resume_determinism rngW fitOne (1 / 2) 2 3 10 0 sMid.hyp sMid.meta logW logW2
      rfl (by decide)⟩
